import Mathlib

/-!
Shallow embedding of `github_metrics/main.py` (jakubvalenta/github-metrics)
and proofs about the claims of its specification.

Conventions of the embedding:
* Python `int`/byte values are `Nat`, with explicit `% 2 ^ 32` (`M32`) where
  32-bit overflow matters (inside SHA-256).
* Timestamps are integer epoch seconds (`Int`); durations are exact rationals
  at the single point where Python divides by 60.
* Fallible Python code (`raise`) is `Except String`; `None` is `Option.none`.
* The recursive paginated fetch is given explicit fuel; exhausting the fuel is
  the error `"RecursionLimit"`, mirroring Python's recursion limit.
-/

/-! ### Python `round` (banker's rounding, round-half-to-even) -/

/-- Python's built-in `round` on an exact rational value: nearest integer,
ties to the even neighbour. -/
def pythonRound (q : ℚ) : ℤ :=
  if q - ⌊q⌋ = 1 / 2 then (if Even ⌊q⌋ then ⌊q⌋ else ⌊q⌋ + 1) else round q

/-! ### UTF-8 encoding of a string (Python `str.encode()`) -/

/-- UTF-8 encoding of a single Unicode code point, as a list of byte values. -/
def utf8Enc (n : Nat) : List Nat :=
  if n < 128 then [n]
  else if n < 2048 then [192 + n / 64, 128 + n % 64]
  else if n < 65536 then [224 + n / 4096, 128 + n / 64 % 64, 128 + n % 64]
  else [240 + n / 262144, 128 + n / 4096 % 64, 128 + n / 64 % 64, 128 + n % 64]

/-- `s.encode()`: the UTF-8 bytes of a string. -/
def utf8Bytes (s : String) : List Nat :=
  s.data.flatMap (fun c => utf8Enc c.toNat)

/-! ### SHA-256 (`hashlib.sha256`), on byte lists, words as `Nat % 2^32` -/

def M32 : Nat := 4294967296

def add32 (a b : Nat) : Nat := (a + b) % M32

/-- Rotate a 32-bit word right by `n` bits. -/
def rotr32 (n x : Nat) : Nat := (x / 2 ^ n + x % 2 ^ n * 2 ^ (32 - n)) % M32

def shaCh (e f g : Nat) : Nat := (e &&& f) ^^^ ((e ^^^ (M32 - 1)) &&& g)

def shaMaj (a b c : Nat) : Nat := (a &&& b) ^^^ (a &&& c) ^^^ (b &&& c)

def bigSigma0 (a : Nat) : Nat := rotr32 2 a ^^^ rotr32 13 a ^^^ rotr32 22 a

def bigSigma1 (e : Nat) : Nat := rotr32 6 e ^^^ rotr32 11 e ^^^ rotr32 25 e

def smallSigma0 (x : Nat) : Nat := rotr32 7 x ^^^ rotr32 18 x ^^^ x / 8

def smallSigma1 (x : Nat) : Nat := rotr32 17 x ^^^ rotr32 19 x ^^^ x / 1024

/-- The 64 SHA-256 round constants. -/
def shaK : List Nat :=
  [1116352408, 1899447441, 3049323471, 3921009573, 961987163,
   1508970993, 2453635748, 2870763221, 3624381080, 310598401,
   607225278, 1426881987, 1925078388, 2162078206, 2614888103,
   3248222580, 3835390401, 4022224774, 264347078, 604807628,
   770255983, 1249150122, 1555081692, 1996064986, 2554220882,
   2821834349, 2952996808, 3210313671, 3336571891, 3584528711,
   113926993, 338241895, 666307205, 773529912, 1294757372,
   1396182291, 1695183700, 1986661051, 2177026350, 2456956037,
   2730485921, 2820302411, 3259730800, 3345764771, 3516065817,
   3600352804, 4094571909, 275423344, 430227734, 506948616,
   659060556, 883997877, 958139571, 1322822218, 1537002063,
   1747873779, 1955562222, 2024104815, 2227730452, 2361852424,
   2428436474, 2756734187, 3204031479, 3329325298]

/-- SHA-256 padding: append `0x80`, zeros, and the 8-byte big-endian bit
length, so the total length is a multiple of 64 bytes. -/
def shaPad (msg : List Nat) : List Nat :=
  let L := msg.length
  let k := (119 - L % 64) % 64
  let bits := 8 * L
  msg ++ [128] ++ List.replicate k 0 ++
    [bits / 2 ^ 56 % 256, bits / 2 ^ 48 % 256, bits / 2 ^ 40 % 256,
     bits / 2 ^ 32 % 256, bits / 2 ^ 24 % 256, bits / 2 ^ 16 % 256,
     bits / 2 ^ 8 % 256, bits % 256]

/-- Split a byte list into 64-byte blocks (structural recursion so that the
kernel can evaluate it). -/
def shaChunksAux : List Nat → List Nat → List (List Nat)
  | [], acc => if acc.isEmpty then [] else [acc.reverse]
  | b :: rest, acc =>
      if acc.length = 63 then (b :: acc).reverse :: shaChunksAux rest []
      else shaChunksAux rest (b :: acc)

/-- Split a byte list into 64-byte blocks. -/
def shaChunks (l : List Nat) : List (List Nat) := shaChunksAux l []

/-- Group bytes (big-endian) into 32-bit words. -/
def shaWordsOf : List Nat → List Nat
  | b0 :: b1 :: b2 :: b3 :: rest =>
      (b0 * 16777216 + b1 * 65536 + b2 * 256 + b3) :: shaWordsOf rest
  | _ => []

/-- One message-schedule extension step: append word `W[t]` computed from
`W[t-2]`, `W[t-7]`, `W[t-15]`, `W[t-16]`. -/
def shaScheduleStep (ws : List Nat) : List Nat :=
  ws ++ [(smallSigma1 (ws.getD (ws.length - 2) 0) + ws.getD (ws.length - 7) 0 +
          smallSigma0 (ws.getD (ws.length - 15) 0) + ws.getD (ws.length - 16) 0) % M32]

def shaSchedule : Nat → List Nat → List Nat
  | 0, ws => ws
  | n + 1, ws => shaSchedule n (shaScheduleStep ws)

/-- The SHA-256 working state: eight 32-bit words. -/
structure Sha8 where
  a : Nat
  b : Nat
  c : Nat
  d : Nat
  e : Nat
  f : Nat
  g : Nat
  h : Nat

def shaInit : Sha8 :=
  ⟨1779033703, 3144134277, 1013904242, 2773480762,
   1359893119, 2600822924, 528734635, 1541459225⟩

/-- One compression round, consuming a pair (round constant, schedule word). -/
def shaRound (st : Sha8) (kw : Nat × Nat) : Sha8 :=
  let t1 := (st.h + bigSigma1 st.e + shaCh st.e st.f st.g + kw.1 + kw.2) % M32
  let t2 := (bigSigma0 st.a + shaMaj st.a st.b st.c) % M32
  ⟨add32 t1 t2, st.a, st.b, st.c, add32 st.d t1, st.e, st.f, st.g⟩

/-- Process one 64-byte block. -/
def shaBlock (H : Sha8) (block : List Nat) : Sha8 :=
  let ws := shaSchedule 48 (shaWordsOf block)
  let st := (shaK.zip ws).foldl shaRound H
  ⟨add32 H.a st.a, add32 H.b st.b, add32 H.c st.c, add32 H.d st.d,
   add32 H.e st.e, add32 H.f st.f, add32 H.g st.g, add32 H.h st.h⟩

/-- The eight final hash words of a byte message. -/
def sha256Words (msg : List Nat) : List Nat :=
  let H := (shaChunks (shaPad msg)).foldl shaBlock shaInit
  [H.a, H.b, H.c, H.d, H.e, H.f, H.g, H.h]

/-- Big-endian bytes of a 32-bit word. -/
def wordBytes (w : Nat) : List Nat :=
  [w / 16777216 % 256, w / 65536 % 256, w / 256 % 256, w % 256]

def hexDigitChars : List Char := "0123456789abcdef".data

def hexDigit (n : Nat) : Char := hexDigitChars.getD n 'x'

/-- Two lowercase hex characters of a byte. -/
def byteHex (b : Nat) : List Char := [hexDigit (b / 16 % 16), hexDigit (b % 16)]

/-- `hashlib.sha256(bytes).hexdigest()`: 64 lowercase hex characters. -/
def sha256Hexdigest (msg : List Nat) : String :=
  String.mk (((sha256Words msg).flatMap wordBytes).flatMap byteHex)

/-! ### `safe_filename` -/

/-- The character class `[A-Za-z0-9_\-\.]` of the sanitizing regex. -/
def isSafeChar (c : Char) : Bool :=
  (('A' ≤ c && c ≤ 'Z') || ('a' ≤ c && c ≤ 'z') || ('0' ≤ c && c ≤ '9') ||
   c = '_' || c = '-' || c = '.')

/-- `re.sub(r'[^A-Za-z0-9_\-\.]', '_', s)`: replace every character outside
the safe class by an underscore. -/
def sanitizeChars (cs : List Char) : List Char :=
  cs.map (fun c => if isSafeChar c then c else '_')

/-- Python `str.strip('_')`: drop leading and trailing underscores. -/
def stripUnderscores (cs : List Char) : List Char :=
  ((cs.dropWhile (fun c => c = '_')).reverse.dropWhile (fun c => c = '_')).reverse

/-- `sha256(s.encode()).hexdigest()[:7]`. -/
def shortHash (s : String) : String :=
  String.mk ((sha256Hexdigest (utf8Bytes s)).data.take 7)

/-- `safe_filename` from the source: sanitized, stripped, truncated slug of
`s` followed by `--` and the 7-character hash fragment. -/
def safe_filename (s : String) (max_length : Nat := 64) : String :=
  let safe_str := String.mk ((stripUnderscores (sanitizeChars s.data)).take max_length)
  safe_str ++ "--" ++ shortHash s

/-! ### Parsing the `Link` header: `re.search(r'<(?P<url>[^<]+)>; rel="next"', link)` -/

def listStartsWith : List Char → List Char → Bool
  | [], _ => true
  | _ :: _, [] => false
  | p :: ps, c :: cs => p == c && listStartsWith ps cs

def relNextTail : List Char := "; rel=\"next\"".data

/-- All positions `p` (relative to the text after the opening bracket) at
which the group `[^<]+` can stop: the group `take p` is nonempty and free of
the opening bracket, position `p` holds the closing bracket, and the literal
tail of the pattern follows.  Python's greedy `[^<]+` picks the largest. -/
def groupEnds (after : List Char) : List Nat :=
  let n := (after.takeWhile (fun c => c ≠ '<')).length
  (List.range (n + 1)).filter (fun p =>
    decide (0 < p) && after.getD p '<' == '>' && listStartsWith relNextTail (after.drop (p + 1)))

/-- Try to match the pattern at the head of the text; on success return the
characters captured by the `url` group. -/
def findRelNextAt : List Char → Option (List Char)
  | '<' :: after => ((groupEnds after).getLast?).map (fun p => after.take p)
  | _ => none

/-- `re.search`: try every start position from the left. -/
def reSearchRelNext : List Char → Option (List Char)
  | [] => none
  | c :: cs =>
    match findRelNextAt (c :: cs) with
    | some u => some u
    | none => reSearchRelNext cs

/-- `r.headers['Link']` followed by the regex search: a missing `Link` header
raises `KeyError`; otherwise the next URL is the first match, if any. -/
def parseNextUrl (headers : String → Option String) : Except String (Option String) :=
  match headers "Link" with
  | none => .error "KeyError: Link"
  | some link => .ok ((reSearchRelNext link.data).map String.mk)

/-! ### Cache store and paginated fetch (`github_api_list`) -/

/-- Counters of the observable side effects of a run. -/
structure Effects where
  netCalls : Nat
  cacheReads : Nat
  cacheWrites : Nat
deriving DecidableEq

def Effects.add (e1 e2 : Effects) : Effects :=
  ⟨e1.netCalls + e2.netCalls, e1.cacheReads + e2.cacheReads,
   e1.cacheWrites + e2.cacheWrites⟩

/-- One persisted cache file: `{'items': ..., 'next_url': ...}`. -/
structure CachedPage (α : Type) where
  items : List α
  next_url : Option String
deriving DecidableEq

/-- An HTTP response: success flag (`raise_for_status`), JSON body (a list of
items) and the response headers. -/
structure Response (α : Type) where
  ok : Bool
  items : List α
  headers : String → Option String

/-- The cache directory: an association of file names to cached pages. -/
abbrev Cache (α : Type) := List (String × CachedPage α)

/-- The cache file name of a URL: `safe_filename(url) + '.json'`. -/
def cacheKey (url : String) : String := safe_filename url ++ ".json"

/-- The body of one invocation of `github_api_list` up to the yield: consult
the cache; on a miss perform the network call, check the status, extract the
next URL from the `Link` header and persist the page.  Returns the items of
the page, the next URL, the updated cache and the effect counts. -/
def githubApiStep {α : Type} (net : String → String → Response α) (token : String)
    (url : String) (cache : Cache α) :
    Except String (List α × Option String × Cache α × Effects) :=
  match cache.lookup (cacheKey url) with
  | some page => .ok (page.items, page.next_url, cache, ⟨0, 1, 0⟩)
  | none =>
    let r := net url ("Bearer " ++ token)
    if r.ok then
      match parseNextUrl r.headers with
      | .error e => .error e
      | .ok next => .ok (r.items, next, (cacheKey url, ⟨r.items, next⟩) :: cache, ⟨1, 1, 1⟩)
    else .error "HTTPError"

/-- `github_api_list`: yield the items of the current page, then recurse to
the next URL if one exists.  The recursion is given explicit fuel. -/
def github_api_list {α : Type} (net : String → String → Response α) (token : String) :
    Nat → String → Cache α → Except String (List α × Cache α × Effects)
  | 0, _, _ => .error "RecursionLimit"
  | fuel + 1, url, cache =>
    match githubApiStep net token url cache with
    | .error e => .error e
    | .ok (items, next, cache1, eff) =>
      match next with
      | none => .ok (items, cache1, eff)
      | some u =>
        match github_api_list net token fuel u cache1 with
        | .error e => .error e
        | .ok (rest, cache2, eff2) => .ok (items ++ rest, cache2, eff.add eff2)

/-! ### Record transformation (`transform_pull_request_item`) -/

structure PullRequest where
  title : String
  url : String
  created_at : Int
  merged_at : Int
  created_to_merged_minutes : Int
deriving DecidableEq

/-- A raw API item, with only the fields the program consumes.  Timestamps
are the raw JSON strings; a JSON `null` merge timestamp is `none`. -/
structure RawItem where
  title : String
  html_url : String
  created_at : String
  merged_at : Option String
deriving DecidableEq

/-- `transform_pull_request_item`, parameterised by the external timestamp
parser (`dateutil.parser.parse`, which raises on text it cannot parse —
modelled as `Option`).  A falsy merge timestamp (JSON `null` or an empty
string) yields nothing; parse failures propagate as errors. -/
def transform_pull_request_item (parse : String → Option Int) (item : RawItem) :
    Except String (Option PullRequest) :=
  match item.merged_at with
  | none => .ok none
  | some s =>
    if s = "" then .ok none
    else
      match parse item.created_at with
      | none => .error "ParserError"
      | some created =>
        match parse s with
        | none => .error "ParserError"
        | some merged =>
          .ok (some
            { title := item.title
              url := item.html_url
              created_at := created
              merged_at := merged
              created_to_merged_minutes := pythonRound (((merged - created : Int) : ℚ) / 60) })

def seedUrl (owner repo : String) : String :=
  "https://api.github.com/repos/" ++ owner ++ "/" ++ repo ++ "/pulls?state=closed"

/-- `fetch_pull_requests`: run the paginated fetch from the seed URL and keep
the transformed records of the merged items. -/
def fetch_pull_requests (parse : String → Option Int) (net : String → String → Response RawItem)
    (fuel : Nat) (owner repo token : String) (cache : Cache RawItem) :
    Except String (List PullRequest × Cache RawItem × Effects) :=
  match github_api_list net token fuel (seedUrl owner repo) cache with
  | .error e => .error e
  | .ok (items, c, eff) =>
    match items.mapM (transform_pull_request_item parse) with
    | .error e => .error e
    | .ok opts => .ok (opts.filterMap id, c, eff)

/-! ### Aggregation (`calc_stats_daily`, `calc_stats_weekly`) -/

/-- `pd.Grouper(freq='D')`: the midnight (in seconds) starting the UTC day of
a timestamp. -/
def dayBucket (t : Int) : Int := 86400 * t.fdiv 86400

/-- `pd.Grouper(freq='W')` (weeks ending Sunday, labelled by the right edge):
the midnight of the Sunday on or after the timestamp's day.  Day 0
(1970-01-01) is a Thursday, so Sundays are the days congruent to 3 mod 7. -/
def weekBucket (t : Int) : Int :=
  let d := t.fdiv 86400
  86400 * (d + (3 - d) % 7)

def bucketCreatedDaily (r : PullRequest) : Int := dayBucket r.created_at

def bucketMergedDaily (r : PullRequest) : Int := dayBucket r.merged_at

def bucketCreatedWeekly (r : PullRequest) : Int := weekBucket r.created_at

def bucketMergedWeekly (r : PullRequest) : Int := weekBucket r.merged_at

/-- The arithmetic progression `lo, lo + step, …, hi` of bin labels. -/
def binRange (step lo hi : Int) : List Int :=
  (List.range (((hi - lo) / step).toNat + 1)).map (fun (i : Nat) => lo + step * (i : Int))

/-- The bin labels of a pandas `Grouper(freq=…)` groupby over a list of
(already bucketed) key values: every period from the smallest to the largest
occurring label, empty periods included; no bins at all for an empty
series. -/
def binsOf (step : Int) : List Int → List Int
  | [] => []
  | k :: ks => binRange step (ks.foldl min k) (ks.foldl max k)

def groupBins (key : PullRequest → Int) (step : Int) (rs : List PullRequest) : List Int :=
  binsOf step (rs.map key)

/-- `groupby(Grouper(freq=…)).count()`: the size of each bin — zero for an
empty in-range bin — indexed by bin label. -/
def groupCount (key : PullRequest → Int) (step : Int) (rs : List PullRequest) :
    List (Int × Nat) :=
  (groupBins key step rs).map (fun k => (k, rs.countP (fun r => key r == k)))

/-- `groupby(Grouper(freq=…))['created_to_merged_minutes'].mean()`: the
arithmetic mean of the minutes of each bin, `NaN` (modelled `none`) for an
empty in-range bin, indexed by bin label. -/
def groupMean (key : PullRequest → Int) (step : Int) (rs : List PullRequest) :
    List (Int × Option ℚ) :=
  (groupBins key step rs).map (fun k =>
    (k, if rs.filter (fun r => key r == k) = [] then none
        else some (((rs.filter (fun r => key r == k)).map
            (fun r => (r.created_to_merged_minutes : ℚ))).sum /
          ((rs.filter (fun r => key r == k)).length : ℚ))))

/-- One row of an aggregate table: the bucket start and the three column
values, each `none` where the joined frame holds `NaN` (a bucket outside the
column's binned range, or — for the mean — an empty bin). -/
structure StatsRow where
  date : Int
  createdCount : Option Nat
  mergedCount : Option Nat
  meanMinutes : Option ℚ
deriving DecidableEq

/-- `pd.DataFrame({...})` over the three series: align them on the sorted
union of their indices, leaving a `NaN` hole where a series lacks the key;
a `NaN` already inside the mean series stays `NaN`. -/
def calc_stats (ckey mkey : PullRequest → Int) (step : Int) (rs : List PullRequest) :
    List StatsRow :=
  let created := groupCount ckey step rs
  let merged := groupCount mkey step rs
  let mean := groupMean mkey step rs
  let index := List.insertionSort (· ≤ ·) ((created.map Prod.fst ++ merged.map Prod.fst).dedup)
  index.map (fun k => ⟨k, created.lookup k, merged.lookup k, (mean.lookup k).bind id⟩)

def calc_stats_daily (rs : List PullRequest) : List StatsRow :=
  calc_stats bucketCreatedDaily bucketMergedDaily 86400 rs

def calc_stats_weekly (rs : List PullRequest) : List StatsRow :=
  calc_stats bucketCreatedWeekly bucketMergedWeekly 604800 rs

/-! ### Report emission (`df.to_csv`) and `main` -/

/-- Civil calendar date of an epoch day number (proleptic Gregorian). -/
def civilFromDays (z0 : Int) : Int × Int × Int :=
  let z := z0 + 719468
  let era := z.fdiv 146097
  let doe := z - era * 146097
  let yoe := (doe - doe.fdiv 1460 + doe.fdiv 36524 - doe.fdiv 146096).fdiv 365
  let y := yoe + era * 400
  let doy := doe - (365 * yoe + yoe.fdiv 4 - yoe.fdiv 100)
  let mp := (5 * doy + 2).fdiv 153
  let d := doy - (153 * mp + 2).fdiv 5 + 1
  let m := mp + (if mp < 10 then 3 else -9)
  (y + (if m ≤ 2 then 1 else 0), m, d)

def pad2 (n : Nat) : String := if n < 10 then "0" ++ toString n else toString n

def pad4 (n : Nat) : String :=
  if n < 10 then "000" ++ toString n
  else if n < 100 then "00" ++ toString n
  else if n < 1000 then "0" ++ toString n
  else toString n

/-- How pandas serialises a timezone-aware UTC timestamp to CSV:
`YYYY-MM-DD HH:MM:SS+00:00`. -/
def renderDateTime (t : Int) : String :=
  let days := t.fdiv 86400
  let secs := (t % 86400).toNat
  let ymd := civilFromDays days
  pad4 ymd.1.toNat ++ "-" ++ pad2 ymd.2.1.toNat ++ "-" ++ pad2 ymd.2.2.toNat ++ " " ++
    pad2 (secs / 3600) ++ ":" ++ pad2 (secs % 3600 / 60) ++ ":" ++ pad2 (secs % 60) ++ "+00:00"

/-- CSV minimal quoting: quote a field containing a delimiter, quote or line
terminator, doubling inner quotes. -/
def csvField (s : String) : String :=
  if s.data.any (fun c => c = ',' || c = '"' || c = '\n' || c = '\r') then
    "\"" ++ String.mk (s.data.flatMap (fun c => if c = '"' then ['"', '"'] else [c])) ++ "\""
  else s

/-- The header written by `df.to_csv(index_label='created_at', columns=[...])`:
the index label followed by the five selected columns. -/
def dataHeader : String :=
  "created_at,title,url,created_at,merged_at,created_to_merged_minutes"

/-- One data row: the positional index of the default `RangeIndex`, then the
five selected columns. -/
def renderDataRow (i : Nat) (pr : PullRequest) : String :=
  String.intercalate ","
    [toString i, csvField pr.title, csvField pr.url, renderDateTime pr.created_at,
     renderDateTime pr.merged_at, toString pr.created_to_merged_minutes]

/-- `df.to_csv` of the record data frame.  On an empty record collection the
column selection raises (`pd.DataFrame` of an empty generator has no
columns). -/
def data_to_csv (prs : List PullRequest) : Except String (List String) :=
  if prs.isEmpty then .error "KeyError: columns"
  else .ok (dataHeader :: prs.enum.map (fun ie => renderDataRow ie.1 ie.2))

/-- The `main` entry point up to the primary data output: read the credential
from the environment (its absence — or emptiness — raises before anything
else runs), fetch, transform and emit. -/
def mainModel (env : String → Option String) (parse : String → Option Int)
    (net : String → String → Response RawItem) (fuel : Nat) (owner repo : String)
    (cache : Cache RawItem) : Except String (List String × Cache RawItem × Effects) :=
  match env "ACCESS_TOKEN" with
  | none => .error "Missing ACCESS_TOKEN environment variable"
  | some token =>
    if token = "" then .error "Missing ACCESS_TOKEN environment variable"
    else
      match fetch_pull_requests parse net fuel owner repo token cache with
      | .error e => .error e
      | .ok (prs, c, eff) =>
        match data_to_csv prs with
        | .error e => .error e
        | .ok lines => .ok (lines, c, eff)

/-- The process outcome of an uncaught Python exception versus a normal
return. -/
def exitCode {α : Type} (r : Except String α) : Nat :=
  match r with
  | .ok _ => 0
  | .error _ => 1

set_option maxRecDepth 100000

/-! ## Helper lemmas -/

theorem stringDataInj {a b : String} (h : a.data = b.data) : a = b := by
  cases a; cases b; exact congrArg String.mk h

/-- Looking a key up in an association list built by pairing each key of `ks`
with `f` of that key. -/
theorem lookup_keyed {β : Type} (f : Int → β) :
    ∀ (ks : List Int) (k : Int),
      (ks.map (fun x => (x, f x))).lookup k = if k ∈ ks then some (f k) else none := by
  intro ks
  induction ks with
  | nil => intro k; simp [List.lookup]
  | cons a ks ih =>
    intro k
    cases hka : (k == a)
    · have hne : k ≠ a := by simpa using hka
      simp [List.lookup, hka, ih k, hne]
    · have he : k = a := by simpa using hka
      simp [List.lookup, hka, he]

theorem map_fst_keyed {β : Type} (f : Int → β) (ks : List Int) :
    (ks.map (fun x => (x, f x))).map Prod.fst = ks := by
  induction ks with
  | nil => rfl
  | cons a ks ih => simp [ih]

theorem countP_key_eq_count_map (key : PullRequest → Int) (rs : List PullRequest) (k : Int) :
    rs.countP (fun r => key r == k) = (rs.map key).count k := by
  induction rs with
  | nil => rfl
  | cons r rs ih => simp [List.countP_cons, List.count_cons, ih]

theorem foldl_min_le_seed : ∀ (ks : List Int) (k : Int), ks.foldl min k ≤ k := by
  intro ks
  induction ks with
  | nil => intro k; exact le_refl k
  | cons a ks ih => intro k; exact le_trans (ih (min k a)) (min_le_left k a)

theorem le_foldl_max_seed : ∀ (ks : List Int) (k : Int), k ≤ ks.foldl max k := by
  intro ks
  induction ks with
  | nil => intro k; exact le_refl k
  | cons a ks ih => intro k; exact le_trans (le_max_left k a) (ih (max k a))

theorem foldl_min_le : ∀ (ks : List Int) (k x : Int), x ∈ k :: ks → ks.foldl min k ≤ x := by
  intro ks
  induction ks with
  | nil =>
    intro k x hx
    rw [List.mem_singleton] at hx
    exact le_of_eq (hx ▸ rfl)
  | cons a ks ih =>
    intro k x hx
    show ks.foldl min (min k a) ≤ x
    rcases List.mem_cons.mp hx with rfl | hx2
    · exact le_trans (foldl_min_le_seed ks (min x a)) (min_le_left x a)
    · rcases List.mem_cons.mp hx2 with rfl | hx3
      · exact le_trans (foldl_min_le_seed ks (min k x)) (min_le_right k x)
      · exact ih (min k a) x (List.mem_cons_of_mem _ hx3)

theorem le_foldl_max : ∀ (ks : List Int) (k x : Int), x ∈ k :: ks → x ≤ ks.foldl max k := by
  intro ks
  induction ks with
  | nil =>
    intro k x hx
    rw [List.mem_singleton] at hx
    exact le_of_eq (hx ▸ rfl)
  | cons a ks ih =>
    intro k x hx
    show x ≤ ks.foldl max (max k a)
    rcases List.mem_cons.mp hx with rfl | hx2
    · exact le_trans (le_max_left x a) (le_foldl_max_seed ks (max x a))
    · rcases List.mem_cons.mp hx2 with rfl | hx3
      · exact le_trans (le_max_right k x) (le_foldl_max_seed ks (max k x))
      · exact ih (max k a) x (List.mem_cons_of_mem _ hx3)

theorem foldl_min_mem : ∀ (ks : List Int) (k : Int), ks.foldl min k ∈ k :: ks := by
  intro ks
  induction ks with
  | nil => intro k; exact List.mem_singleton.mpr rfl
  | cons a ks ih =>
    intro k
    show ks.foldl min (min k a) ∈ k :: a :: ks
    rcases List.mem_cons.mp (ih (min k a)) with h | h
    · rcases min_choice k a with hm | hm
      · rw [h, hm]; exact List.mem_cons_self _ _
      · rw [h, hm]; exact List.mem_cons_of_mem _ (List.mem_cons_self _ _)
    · exact List.mem_cons_of_mem _ (List.mem_cons_of_mem _ h)

theorem foldl_max_mem : ∀ (ks : List Int) (k : Int), ks.foldl max k ∈ k :: ks := by
  intro ks
  induction ks with
  | nil => intro k; exact List.mem_singleton.mpr rfl
  | cons a ks ih =>
    intro k
    show ks.foldl max (max k a) ∈ k :: a :: ks
    rcases List.mem_cons.mp (ih (max k a)) with h | h
    · rcases max_choice k a with hm | hm
      · rw [h, hm]; exact List.mem_cons_self _ _
      · rw [h, hm]; exact List.mem_cons_of_mem _ (List.mem_cons_self _ _)
    · exact List.mem_cons_of_mem _ (List.mem_cons_of_mem _ h)

/-- A label that is aligned to the range and lies between its ends is one of
the bins. -/
theorem mem_binRange {step lo hi x : Int} (hstep : 0 < step) (hdvd : step ∣ (x - lo))
    (hlo : lo ≤ x) (hhi : x ≤ hi) : x ∈ binRange step lo hi := by
  obtain ⟨j, hj⟩ := hdvd
  have hj0 : 0 ≤ j := by nlinarith
  unfold binRange
  rw [List.mem_map]
  refine ⟨j.toNat, ?_, ?_⟩
  · rw [List.mem_range]
    have hjle : j ≤ (hi - lo) / step := by
      have h2 : (x - lo) / step ≤ (hi - lo) / step := Int.ediv_le_ediv hstep (by omega)
      have h3 : (x - lo) / step = j := by
        rw [hj, Int.mul_ediv_cancel_left _ (by omega : step ≠ 0)]
      omega
    omega
  · rw [Int.toNat_of_nonneg hj0]
    linarith [hj]

theorem binRange_sorted {step lo hi : Int} (hstep : 0 < step) :
    List.Sorted (· < ·) (binRange step lo hi) := by
  unfold binRange
  refine List.Pairwise.map (fun i : Nat => lo + step * (i : Int))
    (fun a b hab => ?_) (List.pairwise_lt_range _)
  show lo + step * (a : Int) < lo + step * (b : Int)
  have hab2 : (a : Int) < (b : Int) := by exact_mod_cast hab
  nlinarith

theorem binsOf_sorted {step : Int} (hstep : 0 < step) (l : List Int) :
    List.Sorted (· < ·) (binsOf step l) := by
  cases l with
  | nil => exact List.sorted_nil
  | cons k ks => exact binRange_sorted hstep

theorem binsOf_nodup {step : Int} (hstep : 0 < step) (l : List Int) :
    (binsOf step l).Nodup :=
  (binsOf_sorted hstep l).nodup

/-- Completeness of the binning: every occurring label lies in the bins,
provided all labels are aligned to the common step. -/
theorem mem_binsOf {step : Int} (hstep : 0 < step) {l : List Int}
    (halign : ∀ x ∈ l, ∀ y ∈ l, step ∣ (x - y)) : ∀ x ∈ l, x ∈ binsOf step l := by
  intro x hx
  cases l with
  | nil => cases hx
  | cons k ks =>
    exact mem_binRange hstep (halign x hx _ (foldl_min_mem ks k))
      (foldl_min_le ks k x hx) (le_foldl_max ks k x hx)

theorem nodup_groupBins {step : Int} (hstep : 0 < step) (key : PullRequest → Int)
    (rs : List PullRequest) : (groupBins key step rs).Nodup :=
  binsOf_nodup hstep _

theorem dayBucket_align (t1 t2 : Int) : (86400 : Int) ∣ (dayBucket t1 - dayBucket t2) :=
  ⟨t1.fdiv 86400 - t2.fdiv 86400, by unfold dayBucket; ring⟩

theorem weekBucket_align (t1 t2 : Int) : (604800 : Int) ∣ (weekBucket t1 - weekBucket t2) := by
  have h1 : weekBucket t1 = 86400 * (t1.fdiv 86400 + (3 - t1.fdiv 86400) % 7) := rfl
  have h2 : weekBucket t2 = 86400 * (t2.fdiv 86400 + (3 - t2.fdiv 86400) % 7) := rfl
  rw [h1, h2]
  generalize t1.fdiv 86400 = d1
  generalize t2.fdiv 86400 = d2
  omega

theorem align_map_of_bucket {key : PullRequest → Int} {step : Int}
    (h : ∀ r1 r2 : PullRequest, step ∣ (key r1 - key r2)) (rs : List PullRequest) :
    ∀ x ∈ rs.map key, ∀ y ∈ rs.map key, step ∣ (x - y) := by
  intro x hx y hy
  obtain ⟨r1, _, rfl⟩ := List.mem_map.mp hx
  obtain ⟨r2, _, rfl⟩ := List.mem_map.mp hy
  exact h r1 r2

/-- The index of `calc_stats`: sorted deduplicated union of the two bin
ranges. -/
def statsIndex (ckey mkey : PullRequest → Int) (step : Int) (rs : List PullRequest) :
    List Int :=
  List.insertionSort (· ≤ ·)
    (((groupCount ckey step rs).map Prod.fst ++ (groupCount mkey step rs).map Prod.fst).dedup)

theorem groupCount_map_fst (key : PullRequest → Int) (step : Int) (rs : List PullRequest) :
    (groupCount key step rs).map Prod.fst = groupBins key step rs :=
  map_fst_keyed _ _

theorem calc_stats_eq_map_index (ckey mkey : PullRequest → Int) (step : Int)
    (rs : List PullRequest) :
    calc_stats ckey mkey step rs =
      (statsIndex ckey mkey step rs).map (fun k =>
        ⟨k, (groupCount ckey step rs).lookup k, (groupCount mkey step rs).lookup k,
         ((groupMean mkey step rs).lookup k).bind id⟩) := rfl

theorem nodup_statsIndex (ckey mkey : PullRequest → Int) (step : Int) (rs : List PullRequest) :
    (statsIndex ckey mkey step rs).Nodup :=
  (List.perm_insertionSort _ _).nodup_iff.mpr (List.nodup_dedup _)

theorem mem_statsIndex {ckey mkey : PullRequest → Int} {step : Int} {rs : List PullRequest}
    {k : Int} :
    k ∈ statsIndex ckey mkey step rs ↔
      k ∈ groupBins ckey step rs ∨ k ∈ groupBins mkey step rs := by
  unfold statsIndex
  rw [(List.perm_insertionSort _ _).mem_iff, List.mem_dedup, List.mem_append,
    groupCount_map_fst, groupCount_map_fst]

/-- Summing `f` over a superset index, with holes outside `ks` valued `0`,
equals summing `f` over `ks`. -/
theorem sum_over_index_eq {f : Int → Nat} :
    ∀ (index ks : List Int), index.Nodup → ks.Nodup → (∀ k ∈ ks, k ∈ index) →
      (index.map (fun k => if k ∈ ks then f k else 0)).sum = (ks.map f).sum := by
  intro index ks hindex hks hsub
  rw [← List.sum_toFinset _ hindex, ← List.sum_toFinset _ hks]
  have hcond : ∀ k : Int, (if k ∈ ks then f k else 0) = (if k ∈ ks.toFinset then f k else 0) := by
    intro k; simp [List.mem_toFinset]
  calc (index.toFinset.sum fun k => if k ∈ ks then f k else 0)
      = index.toFinset.sum fun k => if k ∈ ks.toFinset then f k else 0 :=
        Finset.sum_congr rfl (fun k _ => hcond k)
    _ = (index.toFinset ∩ ks.toFinset).sum f := Finset.sum_ite_mem _ _ _
    _ = ks.toFinset.sum f := by
        rw [Finset.inter_eq_right.mpr]
        intro k hk
        rw [List.mem_toFinset] at hk ⊢
        exact hsub k hk

theorem sum_if_zero {ks : List Int} {x : Int} (hx : x ∉ ks) :
    (ks.map (fun k => if x == k then 1 else 0)).sum = 0 := by
  induction ks with
  | nil => rfl
  | cons a ks ih =>
    have hne : x ≠ a := fun he => hx (he ▸ List.mem_cons_self a ks)
    have hx2 : x ∉ ks := fun h2 => hx (List.mem_cons_of_mem _ h2)
    rw [List.map_cons, List.sum_cons, ih hx2]
    simp [hne]

theorem sum_if_single {ks : List Int} (hnodup : ks.Nodup) {x : Int} (hx : x ∈ ks) :
    (ks.map (fun k => if x == k then 1 else 0)).sum = 1 := by
  induction ks with
  | nil => cases hx
  | cons a ks ih =>
    rw [List.nodup_cons] at hnodup
    rw [List.map_cons, List.sum_cons]
    rcases List.mem_cons.mp hx with rfl | hx2
    · rw [sum_if_zero hnodup.1]
      simp
    · rw [ih hnodup.2 hx2]
      have hne : x ≠ a := fun he => hnodup.1 (he ▸ hx2)
      simp [hne]

/-- Summing the per-bin counts over nodup bins that cover every occurring
label gives the total number of labels. -/
theorem sum_count_of_mem {ks : List Int} (hnodup : ks.Nodup) :
    ∀ {l : List Int}, (∀ x ∈ l, x ∈ ks) → (ks.map (fun k => l.count k)).sum = l.length := by
  intro l
  induction l with
  | nil =>
    intro _
    simp
  | cons x l ih =>
    intro hmem
    simp only [List.count_cons]
    rw [List.sum_map_add]
    rw [ih (fun y hy => hmem y (List.mem_cons_of_mem _ hy))]
    rw [sum_if_single hnodup (hmem x (List.mem_cons_self _ _))]
    simp

/-- The total of one count column of `calc_stats`: rows outside the column's
bin range contribute nothing, in-range rows contribute their bin size, and
the bin sizes add up to the record count. -/
theorem calc_stats_count_total (ckey mkey key : PullRequest → Int) (step : Int)
    (rs : List PullRequest) (hstep : 0 < step)
    (halign : ∀ x ∈ rs.map key, ∀ y ∈ rs.map key, step ∣ (x - y))
    (hsub : ∀ k ∈ groupBins key step rs, k ∈ statsIndex ckey mkey step rs) :
    ((statsIndex ckey mkey step rs).map
      (fun k => ((groupCount key step rs).lookup k).getD 0)).sum = rs.length := by
  have hlookup : ∀ k, ((groupCount key step rs).lookup k).getD 0 =
      if k ∈ groupBins key step rs then rs.countP (fun r => key r == k) else 0 := by
    intro k
    rw [groupCount, lookup_keyed]
    by_cases h : k ∈ groupBins key step rs <;> simp [h]
  calc ((statsIndex ckey mkey step rs).map
        (fun k => ((groupCount key step rs).lookup k).getD 0)).sum
      = ((statsIndex ckey mkey step rs).map
          (fun k => if k ∈ groupBins key step rs
            then rs.countP (fun r => key r == k) else 0)).sum := by
        simp only [hlookup]
    _ = ((groupBins key step rs).map (fun k => rs.countP (fun r => key r == k))).sum :=
        sum_over_index_eq _ _ (nodup_statsIndex ckey mkey step rs)
          (nodup_groupBins hstep key rs) hsub
    _ = ((groupBins key step rs).map (fun k => (rs.map key).count k)).sum := by
        simp only [countP_key_eq_count_map]
    _ = (rs.map key).length :=
        sum_count_of_mem (nodup_groupBins hstep key rs) (mem_binsOf hstep halign)
    _ = rs.length := List.length_map _ _

/-! ## Claim theorems -/

/-- C5: for every finite record collection and each granularity (daily,
weekly), the sum over all aggregate rows of the created-count equals the
total number of records, and likewise for the merged-count (empty in-range
bins contribute zero; a count missing from an outer-joined row counts as
zero). -/
theorem c5_aggregation_totals (rs : List PullRequest) :
    (((calc_stats_daily rs).map (fun row => row.createdCount.getD 0)).sum = rs.length) ∧
    (((calc_stats_daily rs).map (fun row => row.mergedCount.getD 0)).sum = rs.length) ∧
    (((calc_stats_weekly rs).map (fun row => row.createdCount.getD 0)).sum = rs.length) ∧
    (((calc_stats_weekly rs).map (fun row => row.mergedCount.getD 0)).sum = rs.length) := by
  refine ⟨?_, ?_, ?_, ?_⟩
  · rw [show calc_stats_daily rs = calc_stats bucketCreatedDaily bucketMergedDaily 86400 rs
      from rfl, calc_stats_eq_map_index, List.map_map]
    exact calc_stats_count_total _ _ _ _ rs (by norm_num)
      (align_map_of_bucket (fun r1 r2 => dayBucket_align _ _) rs)
      (fun k hk => mem_statsIndex.mpr (Or.inl hk))
  · rw [show calc_stats_daily rs = calc_stats bucketCreatedDaily bucketMergedDaily 86400 rs
      from rfl, calc_stats_eq_map_index, List.map_map]
    exact calc_stats_count_total _ _ _ _ rs (by norm_num)
      (align_map_of_bucket (fun r1 r2 => dayBucket_align _ _) rs)
      (fun k hk => mem_statsIndex.mpr (Or.inr hk))
  · rw [show calc_stats_weekly rs = calc_stats bucketCreatedWeekly bucketMergedWeekly 604800 rs
      from rfl, calc_stats_eq_map_index, List.map_map]
    exact calc_stats_count_total _ _ _ _ rs (by norm_num)
      (align_map_of_bucket (fun r1 r2 => weekBucket_align _ _) rs)
      (fun k hk => mem_statsIndex.mpr (Or.inl hk))
  · rw [show calc_stats_weekly rs = calc_stats bucketCreatedWeekly bucketMergedWeekly 604800 rs
      from rfl, calc_stats_eq_map_index, List.map_map]
    exact calc_stats_count_total _ _ _ _ rs (by norm_num)
      (align_map_of_bucket (fun r1 r2 => weekBucket_align _ _) rs)
      (fun k hk => mem_statsIndex.mpr (Or.inr hk))

/-- C3: a raw item with a null merge timestamp is transformed to nothing;
an item with both timestamps present and parseable is transformed to exactly
one record whose minutes field is the Python rounding of the elapsed seconds
divided by 60. -/
theorem c3_transform_filter_and_minutes (parse : String → Option Int) (item : RawItem)
    (hparse : parse "" = none) :
    (item.merged_at = none → transform_pull_request_item parse item = .ok none) ∧
    (∀ s c m, item.merged_at = some s → parse item.created_at = some c → parse s = some m →
      transform_pull_request_item parse item = .ok (some
        { title := item.title
          url := item.html_url
          created_at := c
          merged_at := m
          created_to_merged_minutes := pythonRound (((m - c : Int) : ℚ) / 60) })) := by
  constructor
  · intro h
    simp [transform_pull_request_item, h]
  · intro s c m hs hc hm
    have hne : s ≠ "" := by
      intro he
      rw [he, hparse] at hm
      cases hm
    simp [transform_pull_request_item, hs, hne, hc, hm]

def parseW : String → Option Int := fun x =>
  if x = "2024-01-01T00:00:00Z" then some 1704067200
  else if x = "2024-01-01T01:30:00Z" then some 1704072600 else none

theorem c3_transform_filter_and_minutes_witness :
    transform_pull_request_item parseW ⟨"t", "u", "2024-01-01T00:00:00Z", none⟩ = .ok none ∧
    transform_pull_request_item parseW
        ⟨"t", "u", "2024-01-01T00:00:00Z", some "2024-01-01T01:30:00Z"⟩ =
      .ok (some ⟨"t", "u", 1704067200, 1704072600, 90⟩) := by
  constructor
  · exact (c3_transform_filter_and_minutes parseW _ rfl).1 rfl
  · have h := (c3_transform_filter_and_minutes parseW
      ⟨"t", "u", "2024-01-01T00:00:00Z", some "2024-01-01T01:30:00Z"⟩ rfl).2
      "2024-01-01T01:30:00Z" 1704067200 1704072600 rfl rfl rfl
    rw [h]
    norm_num [pythonRound, Int.even_iff]

/-- C9: with the bearer-token credential absent from the environment, `main`
raises the configuration error before any fetch or cache access (the outcome
does not depend on the network or the cache at all) and the process exits
non-zero. -/
theorem c9_missing_token_fatal (env : String → Option String) (parse : String → Option Int)
    (net : String → String → Response RawItem) (fuel : Nat) (owner repo : String)
    (cache : Cache RawItem) (h : env "ACCESS_TOKEN" = none) :
    mainModel env parse net fuel owner repo cache =
      .error "Missing ACCESS_TOKEN environment variable" ∧
    exitCode (mainModel env parse net fuel owner repo cache) = 1 ∧
    (∀ (net' : String → String → Response RawItem) (cache' : Cache RawItem),
      mainModel env parse net' fuel owner repo cache' =
        mainModel env parse net fuel owner repo cache) := by
  refine ⟨?_, ?_, ?_⟩
  · simp [mainModel, h]
  · simp [mainModel, h, exitCode]
  · intro net' cache'
    simp [mainModel, h]

theorem c9_missing_token_fatal_witness :
    mainModel (fun _ => none) (fun _ => none) (fun _ _ => ⟨false, [], fun _ => none⟩) 3 "o" "r" [] =
      .error "Missing ACCESS_TOKEN environment variable" ∧
    exitCode (mainModel (fun _ => none) (fun _ => none)
      (fun _ _ => ⟨false, [], fun _ => none⟩) 3 "o" "r" []) = 1 := by
  have h := c9_missing_token_fatal (fun _ => none) (fun _ => none)
    (fun _ _ => ⟨false, [], fun _ => none⟩) 3 "o" "r" [] rfl
  exact ⟨h.1, h.2.1⟩

def noLinkResp : Response Nat := ⟨true, [7], fun _ => none⟩

def prevLinkResp : Response Nat :=
  ⟨true, [5], fun h => if h = "Link" then some "<https://x/p1>; rel=\"prev\"" else none⟩

/-- C4: the code contradicts the claim on the failing input.  A successful
network response carrying no `Link` header at all makes `github_api_list`
raise `KeyError` instead of treating the page as final; when a `Link` header
is present but contains no `rel="next"` relation, the page is indeed treated
as final: its items are yielded and the traversal terminates normally. -/
theorem c4_no_next_relation_final_page :
    githubApiStep (fun _ _ => noLinkResp) "t" "u" ([] : Cache Nat) = .error "KeyError: Link" ∧
    github_api_list (fun _ _ => prevLinkResp) "t" 1 "u" ([] : Cache Nat) =
      .ok ([5], [(cacheKey "u", ⟨[5], none⟩)], ⟨1, 1, 1⟩) := by
  constructor
  · rfl
  · rfl

theorem length_flatMap_const {α β : Type} (f : α → List β) (k : Nat)
    (hf : ∀ x, (f x).length = k) : ∀ l : List α, (l.flatMap f).length = l.length * k := by
  intro l
  induction l with
  | nil => simp
  | cons a l ih =>
    rw [List.flatMap_cons, List.length_append, hf, ih, List.length_cons]
    ring

theorem sha256Hexdigest_length (msg : List Nat) : (sha256Hexdigest msg).data.length = 64 := by
  show (((sha256Words msg).flatMap wordBytes).flatMap byteHex).length = 64
  rw [length_flatMap_const byteHex 2 (fun b => rfl),
    length_flatMap_const wordBytes 4 (fun w => rfl)]
  rfl

theorem mem_hexDigitChars_of_lt (n : Nat) (h : n < 16) : hexDigit n ∈ hexDigitChars := by
  interval_cases n <;> decide

theorem sha256Hexdigest_chars (msg : List Nat) :
    ∀ c ∈ (sha256Hexdigest msg).data, c ∈ hexDigitChars := by
  intro c hc
  have hc2 : c ∈ ((sha256Words msg).flatMap wordBytes).flatMap byteHex := hc
  rw [List.mem_flatMap] at hc2
  obtain ⟨b, _, hcb⟩ := hc2
  rcases hcb with _ | ⟨_, hcb⟩
  · exact mem_hexDigitChars_of_lt _ (Nat.mod_lt _ (by decide))
  · rcases hcb with _ | ⟨_, hcb⟩
    · exact mem_hexDigitChars_of_lt _ (Nat.mod_lt _ (by decide))
    · cases hcb

theorem shortHash_length (s : String) : (shortHash s).data.length = 7 := by
  show ((sha256Hexdigest (utf8Bytes s)).data.take 7).length = 7
  rw [List.length_take, sha256Hexdigest_length]
  decide

theorem shortHash_chars (s : String) : ∀ c ∈ (shortHash s).data, c ∈ hexDigitChars :=
  fun c hc => sha256Hexdigest_chars _ c (List.take_subset _ _ hc)

theorem safe_filename_data (s : String) (n : Nat) :
    (safe_filename s n).data =
      (stripUnderscores (sanitizeChars s.data)).take n ++ '-' :: '-' :: (shortHash s).data := by
  show (String.mk ((stripUnderscores (sanitizeChars s.data)).take n) ++ "--" ++ shortHash s).data = _
  rw [String.data_append, String.data_append, List.append_assoc]
  rfl

theorem stripUnderscores_subset (cs : List Char) : stripUnderscores cs ⊆ cs := by
  intro c hc
  unfold stripUnderscores at hc
  rw [List.mem_reverse] at hc
  have h1 := (List.dropWhile_sublist _).subset hc
  rw [List.mem_reverse] at h1
  exact (List.dropWhile_sublist _).subset h1

theorem sanitizeChars_safe (cs : List Char) : ∀ c ∈ sanitizeChars cs, isSafeChar c = true := by
  intro c hc
  rw [sanitizeChars, List.mem_map] at hc
  obtain ⟨x, _, he⟩ := hc
  by_cases h : isSafeChar x
  · rw [if_pos h] at he
    exact he ▸ h
  · rw [if_neg h] at he
    rw [← he]
    decide

/-- C10: `safe_filename` yields only characters from the safe class (letters,
digits, underscore, dash, dot — in particular no path separator), ends in
`--` followed by exactly 7 lowercase hexadecimal characters, and has length
at most `max_length + 9`. -/
theorem c10_safe_filename_shape (s : String) (n : Nat) :
    (∀ c ∈ (safe_filename s n).data, isSafeChar c = true) ∧
    (∃ pre h7, (safe_filename s n).data = pre ++ '-' :: '-' :: h7 ∧ h7.length = 7 ∧
      ∀ c ∈ h7, c ∈ hexDigitChars) ∧
    (safe_filename s n).length ≤ n + 9 := by
  have hhex : ∀ c ∈ hexDigitChars, isSafeChar c = true := by decide
  refine ⟨?_, ⟨_, _, safe_filename_data s n, shortHash_length s, shortHash_chars s⟩, ?_⟩
  · intro c hc
    rw [safe_filename_data] at hc
    rcases List.mem_append.mp hc with h | h
    · exact sanitizeChars_safe _ c (stripUnderscores_subset _ (List.take_subset _ _ h))
    · rcases h with _ | ⟨_, h⟩
      · decide
      · rcases h with _ | ⟨_, h⟩
        · decide
        · exact hhex c (shortHash_chars s c h)
  · rw [show (safe_filename s n).length = (safe_filename s n).data.length from rfl,
      safe_filename_data, List.length_append, List.length_cons, List.length_cons,
      shortHash_length]
    have := List.length_take_le n (stripUnderscores (sanitizeChars s.data))
    omega

def collisionUrlA : String :=
  "aaaaaaaaaaaaaaaaaaaaaaaaaaaaaaaaaaaaaaaaaaaaaaaaaaaaaaaaaaaaaaaa4240"

def collisionUrlB : String :=
  "aaaaaaaaaaaaaaaaaaaaaaaaaaaaaaaaaaaaaaaaaaaaaaaaaaaaaaaaaaaaaaaa17486"

/-- C7 counterexample: two distinct URLs that differ only past the
truncation length but share both the 64-character slug and the 7-character
hash fragment, hence collide on the derived filename. -/
theorem c7_cache_key_collision :
    collisionUrlA ≠ collisionUrlB ∧ safe_filename collisionUrlA = safe_filename collisionUrlB := by
  constructor
  · decide
  · decide

/-- C7 (amended): what the hash fragment does guarantee — any two URLs whose
7-character hash fragments differ map to distinct filenames, whatever their
slugs. -/
theorem c7_distinct_hash_distinct_filename (s1 s2 : String)
    (h : shortHash s1 ≠ shortHash s2) : safe_filename s1 ≠ safe_filename s2 := by
  intro he
  apply h
  have hd : (safe_filename s1).data = (safe_filename s2).data := by rw [he]
  rw [safe_filename_data, safe_filename_data] at hd
  have h9 : ('-' :: '-' :: (shortHash s1).data).length =
      ('-' :: '-' :: (shortHash s2).data).length := by
    rw [List.length_cons, List.length_cons, List.length_cons, List.length_cons,
      shortHash_length, shortHash_length]
  have heq := (List.append_inj' hd h9).2
  simp only [List.cons.injEq, true_and] at heq
  exact stringDataInj heq

theorem c7_distinct_hash_distinct_filename_witness :
    shortHash "u" ≠ shortHash "v" ∧ safe_filename "u" ≠ safe_filename "v" :=
  ⟨by decide, c7_distinct_hash_distinct_filename "u" "v" (by decide)⟩

theorem githubApiStep_lookup_preserved {α : Type} {net : String → String → Response α}
    {token url : String} {cache : Cache α} {items next cache1 eff}
    (h : githubApiStep net token url cache = .ok (items, next, cache1, eff)) :
    ∀ k v, cache.lookup k = some v → cache1.lookup k = some v := by
  intro k v hk
  unfold githubApiStep at h
  cases hc : cache.lookup (cacheKey url) with
  | some page =>
    rw [hc] at h
    simp only [Except.ok.injEq, Prod.mk.injEq] at h
    rw [← h.2.2.1]
    exact hk
  | none =>
    rw [hc] at h
    by_cases hok : (net url ("Bearer " ++ token)).ok
    · rw [if_pos hok] at h
      cases hp : parseNextUrl (net url ("Bearer " ++ token)).headers with
      | error e =>
        rw [hp] at h
        cases h
      | ok nx =>
        rw [hp] at h
        simp only [Except.ok.injEq, Prod.mk.injEq] at h
        rw [← h.2.2.1]
        cases hkk : (k == cacheKey url) with
        | true =>
          have he : k = cacheKey url := by simpa using hkk
          rw [he, hc] at hk
          cases hk
        | false =>
          simp [List.lookup, hkk, hk]
    · rw [if_neg hok] at h
      cases h

theorem githubApiStep_caches {α : Type} {net : String → String → Response α}
    {token url : String} {cache : Cache α} {items next cache1 eff}
    (h : githubApiStep net token url cache = .ok (items, next, cache1, eff)) :
    cache1.lookup (cacheKey url) = some ⟨items, next⟩ := by
  unfold githubApiStep at h
  cases hc : cache.lookup (cacheKey url) with
  | some page =>
    rw [hc] at h
    simp only [Except.ok.injEq, Prod.mk.injEq] at h
    rw [← h.2.2.1, hc, ← h.1, ← h.2.1]
  | none =>
    rw [hc] at h
    by_cases hok : (net url ("Bearer " ++ token)).ok
    · rw [if_pos hok] at h
      cases hp : parseNextUrl (net url ("Bearer " ++ token)).headers with
      | error e =>
        rw [hp] at h
        cases h
      | ok nx =>
        rw [hp] at h
        simp only [Except.ok.injEq, Prod.mk.injEq] at h
        rw [← h.2.2.1, ← h.1, ← h.2.1]
        simp [List.lookup]
    · rw [if_neg hok] at h
      cases h

theorem githubApiStep_reads {α : Type} {net : String → String → Response α}
    {token url : String} {cache : Cache α} {items next cache1 eff}
    (h : githubApiStep net token url cache = .ok (items, next, cache1, eff)) :
    eff.cacheReads = 1 := by
  unfold githubApiStep at h
  cases hc : cache.lookup (cacheKey url) with
  | some page =>
    rw [hc] at h
    simp only [Except.ok.injEq, Prod.mk.injEq] at h
    rw [← h.2.2.2]
  | none =>
    rw [hc] at h
    by_cases hok : (net url ("Bearer " ++ token)).ok
    · rw [if_pos hok] at h
      cases hp : parseNextUrl (net url ("Bearer " ++ token)).headers with
      | error e =>
        rw [hp] at h
        cases h
      | ok nx =>
        rw [hp] at h
        simp only [Except.ok.injEq, Prod.mk.injEq] at h
        rw [← h.2.2.2]
    · rw [if_neg hok] at h
      cases h

theorem githubApiStep_of_cached {α : Type} {net : String → String → Response α}
    {token url : String} {cache : Cache α} {page : CachedPage α}
    (h : cache.lookup (cacheKey url) = some page) :
    githubApiStep net token url cache = .ok (page.items, page.next_url, cache, ⟨0, 1, 0⟩) := by
  unfold githubApiStep
  rw [h]

theorem github_api_list_lookup_preserved {α : Type} (net : String → String → Response α)
    (token : String) :
    ∀ (fuel : Nat) {url : String} {cache : Cache α} {items cache' eff},
      github_api_list net token fuel url cache = .ok (items, cache', eff) →
      ∀ k v, cache.lookup k = some v → cache'.lookup k = some v := by
  intro fuel
  induction fuel with
  | zero =>
    intro url cache items cache' eff h
    cases h
  | succ n ih =>
    intro url cache items cache' eff h k v hk
    rw [github_api_list] at h
    cases hstep : githubApiStep net token url cache with
    | error e =>
      rw [hstep] at h
      cases h
    | ok t =>
      obtain ⟨items0, next, cache1, eff0⟩ := t
      rw [hstep] at h
      have hpres := githubApiStep_lookup_preserved hstep k v hk
      cases next with
      | none =>
        simp only [Except.ok.injEq, Prod.mk.injEq] at h
        rw [← h.2.1]
        exact hpres
      | some u =>
        dsimp only at h
        cases hrec : github_api_list net token n u cache1 with
        | error e =>
          rw [hrec] at h
          cases h
        | ok t2 =>
          obtain ⟨rest, cache2, eff2⟩ := t2
          rw [hrec] at h
          simp only [Except.ok.injEq, Prod.mk.injEq] at h
          rw [← h.2.1]
          exact ih hrec k v hpres

/-- C2: a run of the paginated fetch that succeeds leaves a cache from which
a second run — with any network and any credential — reproduces exactly the
same item sequence and final cache while performing zero network calls and
zero cache writes: every page is served by the cache-read branch with
exactly the items and next-URL the first run produced and persisted. -/
theorem c2_cache_idempotence {α : Type} (net net' : String → String → Response α)
    (token token' : String) :
    ∀ (fuel : Nat) {url : String} {cache : Cache α} {items cache' eff},
      github_api_list net token fuel url cache = .ok (items, cache', eff) →
      github_api_list net' token' fuel url cache' = .ok (items, cache', ⟨0, eff.cacheReads, 0⟩) := by
  intro fuel
  induction fuel with
  | zero =>
    intro url cache items cache' eff h
    cases h
  | succ n ih =>
    intro url cache items cache' eff h
    rw [github_api_list] at h
    cases hstep : githubApiStep net token url cache with
    | error e =>
      rw [hstep] at h
      cases h
    | ok t =>
      obtain ⟨items0, next, cache1, eff0⟩ := t
      rw [hstep] at h
      have hreads := githubApiStep_reads hstep
      cases next with
      | none =>
        simp only [Except.ok.injEq, Prod.mk.injEq] at h
        obtain ⟨hi, hc1, he⟩ := h
        rw [github_api_list, githubApiStep_of_cached (hc1 ▸ githubApiStep_caches hstep)]
        rw [← hi, ← he, hreads]
      | some u =>
        dsimp only at h
        cases hrec : github_api_list net token n u cache1 with
        | error e =>
          rw [hrec] at h
          cases h
        | ok t2 =>
          obtain ⟨rest, cache2, eff2⟩ := t2
          rw [hrec] at h
          simp only [Except.ok.injEq, Prod.mk.injEq] at h
          obtain ⟨hi, hc2, he⟩ := h
          have hcached : cache'.lookup (cacheKey url) = some ⟨items0, some u⟩ := by
            rw [← hc2]
            exact github_api_list_lookup_preserved net token n hrec _ _
              (githubApiStep_caches hstep)
          rw [github_api_list, githubApiStep_of_cached hcached]
          have hreplay := ih hrec
          rw [hc2] at hreplay
          dsimp only
          rw [hreplay, ← hi, ← he]
          simp [Effects.add, hreads]

def oneePageNet : String → String → Response Nat :=
  fun _ _ => ⟨true, [3], fun h => if h = "Link" then some "no links here" else none⟩

def deadNet : String → String → Response Nat := fun _ _ => ⟨false, [], fun _ => none⟩

theorem c2_cache_idempotence_witness :
    github_api_list oneePageNet "t" 1 "u" ([] : Cache Nat) =
      .ok ([3], [(cacheKey "u", ⟨[3], none⟩)], ⟨1, 1, 1⟩) ∧
    github_api_list deadNet "other" 1 "u" [(cacheKey "u", ⟨[3], none⟩)] =
      .ok ([3], [(cacheKey "u", ⟨[3], none⟩)], ⟨0, 1, 0⟩) := by
  constructor
  · rfl
  · exact c2_cache_idempotence oneePageNet deadNet "t" "other" 1
      (show github_api_list oneePageNet "t" 1 "u" ([] : Cache Nat) =
        .ok ([3], [(cacheKey "u", ⟨[3], none⟩)], ⟨1, 1, 1⟩) from rfl)

/-! ### The page chain served by a network -/

/-- The network serves page `p` at URL `u`: the response is successful, its
body is `p.items`, and its `Link` header encodes `p.next_url`. -/
def Serves {α : Type} (net : String → String → Response α) (token u : String)
    (p : CachedPage α) : Prop :=
  (net u ("Bearer " ++ token)).ok = true ∧
  (net u ("Bearer " ++ token)).items = p.items ∧
  parseNextUrl (net u ("Bearer " ++ token)).headers = .ok p.next_url

/-- The finite sequence of API pages reachable from a seed URL: each entry
pairs a URL with the page the network serves there, each page links to the
next entry's URL, and the last page has no next link. -/
inductive Chain {α : Type} (net : String → String → Response α) (token : String) :
    String → List (String × CachedPage α) → Prop
  | last {u : String} {p : CachedPage α} :
      Serves net token u p → p.next_url = none → Chain net token u [(u, p)]
  | cons {u v : String} {p : CachedPage α} {rest : List (String × CachedPage α)} :
      Serves net token u p → p.next_url = some v → Chain net token v rest →
      Chain net token u ((u, p) :: rest)

theorem github_api_list_chain {α : Type} {net : String → String → Response α} {token : String} :
    ∀ {ch : List (String × CachedPage α)} {u : String},
      Chain net token u ch →
      ∀ (cache : Cache α) (fuel : Nat),
        (∀ e ∈ ch, cache.lookup (cacheKey e.1) = none) →
        (ch.map (fun e => cacheKey e.1)).Nodup →
        ch.length ≤ fuel →
        (github_api_list net token fuel u cache).map (fun x => x.1) =
          .ok (ch.flatMap (fun e => e.2.items)) := by
  intro ch u hchain
  induction hchain with
  | @last u p hserves hnone =>
    intro cache fuel hdisj _ hfuel
    rw [List.length_singleton] at hfuel
    obtain ⟨f, rfl⟩ : ∃ f, fuel = f + 1 := ⟨fuel - 1, by omega⟩
    obtain ⟨hok, hitems, hnext⟩ := hserves
    rw [github_api_list]
    have hstep : githubApiStep net token u cache =
        .ok ((net u ("Bearer " ++ token)).items, p.next_url,
          (cacheKey u, ⟨(net u ("Bearer " ++ token)).items, p.next_url⟩) :: cache, ⟨1, 1, 1⟩) := by
      unfold githubApiStep
      rw [hdisj (u, p) (by simp), if_pos hok, hnext]
    rw [hstep, hnone]
    dsimp only [Except.map]
    rw [hitems]
    simp
  | @cons u v p rest hserves hsome _ ih =>
    intro cache fuel hdisj hnodup hfuel
    rw [List.length_cons] at hfuel
    obtain ⟨f, rfl⟩ : ∃ f, fuel = f + 1 := ⟨fuel - 1, by omega⟩
    obtain ⟨hok, hitems, hnext⟩ := hserves
    rw [hsome] at hnext
    rw [github_api_list]
    have hstep : githubApiStep net token u cache =
        .ok ((net u ("Bearer " ++ token)).items, some v,
          (cacheKey u, ⟨(net u ("Bearer " ++ token)).items, some v⟩) :: cache, ⟨1, 1, 1⟩) := by
      unfold githubApiStep
      rw [hdisj (u, p) (by simp), if_pos hok, hnext]
    rw [hstep]
    dsimp only
    have hkey_notin : cacheKey u ∉ rest.map (fun e => cacheKey e.1) := by
      have := hnodup
      rw [List.map_cons, List.nodup_cons] at this
      exact this.1
    have hdisj2 : ∀ e ∈ rest, ((cacheKey u, (⟨(net u ("Bearer " ++ token)).items, some v⟩ :
        CachedPage α)) :: cache).lookup (cacheKey e.1) = none := by
      intro e he
      have hne : cacheKey e.1 ≠ cacheKey u := by
        intro hcontra
        exact hkey_notin (hcontra ▸ List.mem_map.mpr ⟨e, he, rfl⟩)
      have : (cacheKey e.1 == cacheKey u) = false := by simpa using hne
      simp only [List.lookup, this]
      exact hdisj e (List.mem_cons_of_mem _ he)
    have hnodup2 : (rest.map (fun e => cacheKey e.1)).Nodup := by
      have := hnodup
      rw [List.map_cons, List.nodup_cons] at this
      exact this.2
    have hfuel2 : rest.length ≤ f := by omega
    have hrec := ih _ f hdisj2 hnodup2 hfuel2
    cases hrecres : github_api_list net token f v
        ((cacheKey u, (⟨(net u ("Bearer " ++ token)).items, some v⟩ : CachedPage α)) :: cache) with
    | error e =>
      rw [hrecres] at hrec
      cases hrec
    | ok t2 =>
      obtain ⟨rest2, cache2, eff2⟩ := t2
      rw [hrecres] at hrec
      dsimp only [Except.map] at hrec
      dsimp only [Except.map]
      simp only [Except.ok.injEq] at hrec ⊢
      rw [hitems, List.flatMap_cons, hrec]

/-- C1 (amended): for every chain of API pages reachable from the seed URL
whose URLs map to pairwise distinct cache filenames, the paginated fetch on a
fresh cache yields exactly the concatenation of the pages' items, pages in
link order, items in within-page order, regardless of page size. -/
theorem c1_pagination_completeness {α : Type} (net : String → String → Response α)
    (token : String) (fuel : Nat) (url : String) (ch : List (String × CachedPage α))
    (hchain : Chain net token url ch)
    (hkeys : (ch.map (fun e => cacheKey e.1)).Nodup)
    (hfuel : ch.length ≤ fuel) :
    (github_api_list net token fuel url ([] : Cache α)).map (fun x => x.1) =
      .ok (ch.flatMap (fun e => e.2.items)) :=
  github_api_list_chain hchain [] fuel (fun _ _ => rfl) hkeys hfuel

def pageNet2 : String → String → Response Nat := fun u _ =>
  if u = "a" then ⟨true, [1, 2], fun h => if h = "Link" then some "<b>; rel=\"next\"" else none⟩
  else ⟨true, [3], fun h => if h = "Link" then some "no more pages" else none⟩

theorem c1_pagination_completeness_witness :
    (github_api_list pageNet2 "t" 2 "a" ([] : Cache Nat)).map (fun x => x.1) = .ok [1, 2, 3] := by
  have hchain : Chain pageNet2 "t" "a" [("a", ⟨[1, 2], some "b"⟩), ("b", ⟨[3], none⟩)] :=
    Chain.cons ⟨rfl, rfl, rfl⟩ rfl (Chain.last ⟨rfl, rfl, rfl⟩ rfl)
  have h := c1_pagination_completeness pageNet2 "t" 2 "a" _ hchain (by decide) (by decide)
  exact h

def collisionNet : String → String → Response Nat := fun u _ =>
  if u = collisionUrlA then
    ⟨true, [1],
     fun h => if h = "Link" then some ("<" ++ collisionUrlB ++ ">; rel=\"next\"") else none⟩
  else ⟨true, [2], fun h => if h = "Link" then some "no more pages" else none⟩

/-- C1 counterexample: the unamended claim is false.  A two-page chain whose
URLs collide on the derived cache filename makes the fetch read the first
page's cached copy in place of the second page and loop on its next-URL, so
the yielded sequence is not the concatenation of the chain's items. -/
theorem c1_pagination_completeness_counterexample :
    ¬ (∀ (net : String → String → Response Nat) (token : String) (fuel : Nat) (url : String)
        (ch : List (String × CachedPage Nat)),
        Chain net token url ch → ch.length ≤ fuel →
        (github_api_list net token fuel url ([] : Cache Nat)).map (fun x => x.1) =
          .ok (ch.flatMap (fun e => e.2.items))) := by
  intro hclaim
  have hchain : Chain collisionNet "t" collisionUrlA
      [(collisionUrlA, ⟨[1], some collisionUrlB⟩), (collisionUrlB, ⟨[2], none⟩)] :=
    Chain.cons ⟨rfl, rfl, rfl⟩ rfl (Chain.last ⟨rfl, rfl, rfl⟩ rfl)
  have h := hclaim collisionNet "t" 2 collisionUrlA _ hchain (by decide)
  have hrun : (github_api_list collisionNet "t" 2 collisionUrlA ([] : Cache Nat)).map
      (fun x => x.1) = .error "RecursionLimit" := by rfl
  rw [hrun] at h
  cases h

theorem statsRows_dates (ckey mkey : PullRequest → Int) (step : Int) (rs : List PullRequest) :
    (calc_stats ckey mkey step rs).map StatsRow.date = statsIndex ckey mkey step rs := by
  rw [calc_stats_eq_map_index, List.map_map]
  generalize statsIndex ckey mkey step rs = l
  induction l with
  | nil => rfl
  | cons a l ih =>
    simp only [List.map_cons]
    rw [ih]
    exact rfl

theorem sorted_statsIndex (ckey mkey : PullRequest → Int) (step : Int) (rs : List PullRequest) :
    List.Sorted (· < ·) (statsIndex ckey mkey step rs) :=
  (List.sorted_insertionSort _ _).lt_of_le (nodup_statsIndex ckey mkey step rs)

theorem calc_stats_spec (ckey mkey : PullRequest → Int) (step : Int) (rs : List PullRequest)
    (hstep : 0 < step)
    (halignM : ∀ x ∈ rs.map mkey, ∀ y ∈ rs.map mkey, step ∣ (x - y)) :
    (∀ k, (∃ row ∈ calc_stats ckey mkey step rs, row.date = k) ↔
      (k ∈ groupBins ckey step rs ∨ k ∈ groupBins mkey step rs)) ∧
    (∀ row ∈ calc_stats ckey mkey step rs,
      row.createdCount = (if row.date ∈ groupBins ckey step rs
        then some (rs.countP (fun r => ckey r == row.date)) else none) ∧
      row.mergedCount = (if row.date ∈ groupBins mkey step rs
        then some (rs.countP (fun r => mkey r == row.date)) else none) ∧
      row.meanMinutes = (if row.date ∈ rs.map mkey
        then some (((rs.filter (fun r => mkey r == row.date)).map
            (fun r => (r.created_to_merged_minutes : ℚ))).sum /
          ((rs.filter (fun r => mkey r == row.date)).length : ℚ)) else none)) ∧
    List.Sorted (· < ·) ((calc_stats ckey mkey step rs).map StatsRow.date) := by
  refine ⟨?_, ?_, ?_⟩
  · intro k
    rw [calc_stats_eq_map_index]
    constructor
    · rintro ⟨row, hrow, hdate⟩
      rw [List.mem_map] at hrow
      obtain ⟨x, hx, he⟩ := hrow
      rw [← he] at hdate
      exact mem_statsIndex.mp (hdate ▸ hx)
    · intro hk
      exact ⟨_, List.mem_map.mpr ⟨k, mem_statsIndex.mpr hk, rfl⟩, rfl⟩
  · intro row hrow
    rw [calc_stats_eq_map_index, List.mem_map] at hrow
    obtain ⟨k, _, he⟩ := hrow
    subst he
    refine ⟨?_, ?_, ?_⟩
    · show (groupCount ckey step rs).lookup k = _
      rw [groupCount, lookup_keyed]
    · show (groupCount mkey step rs).lookup k = _
      rw [groupCount, lookup_keyed]
    · show ((groupMean mkey step rs).lookup k).bind id = _
      rw [groupMean, lookup_keyed]
      by_cases hocc : k ∈ rs.map mkey
      · have hbins : k ∈ groupBins mkey step rs := mem_binsOf hstep halignM k hocc
        have hne : rs.filter (fun r => mkey r == k) ≠ [] := by
          obtain ⟨r, hr, hrk⟩ := List.mem_map.mp hocc
          intro hnil
          have hmem : r ∈ rs.filter (fun r => mkey r == k) :=
            List.mem_filter.mpr ⟨hr, by simp [hrk]⟩
          rw [hnil] at hmem
          cases hmem
        rw [if_pos hbins, if_neg hne, if_pos hocc]
        rfl
      · have hnil : rs.filter (fun r => mkey r == k) = [] := by
          cases hfe : rs.filter (fun r => mkey r == k) with
          | nil => rfl
          | cons a as =>
            have ha : a ∈ rs.filter (fun r => mkey r == k) := by
              rw [hfe]
              exact List.mem_cons_self _ _
            have hm2 := List.mem_filter.mp ha
            exact absurd (List.mem_map.mpr ⟨a, hm2.1, by simpa using hm2.2⟩) hocc
        by_cases hbins : k ∈ groupBins mkey step rs
        · rw [if_pos hbins, if_pos hnil, if_neg hocc]
          rfl
        · rw [if_neg hbins, if_neg hocc]
          rfl
  · rw [statsRows_dates]
    exact sorted_statsIndex ckey mkey step rs

def rs_c6 : List PullRequest := [⟨"a", "u", 0, 3600, 60⟩, ⟨"b", "v", 172800, 345660, 2881⟩]

/-- C6 counterexample: the claim says a bucket with only creations still
appears with its missing metric blank/undefined.  False: `Grouper(freq=…)`
bins every period between the series' extremes, so a created-only bucket
lying inside the merged series' date range gets merged-count `0`, not a
blank.  Here day 172800 has one creation, no merges, and merged-count
`some 0`. -/
theorem c6_zero_not_blank_counterexample :
    ¬ (∀ row ∈ calc_stats_daily rs_c6,
        row.date ∉ rs_c6.map bucketMergedDaily → row.mergedCount = none) := by
  intro hclaim
  have hmem : (⟨172800, some 1, some 0, none⟩ : StatsRow) ∈ calc_stats_daily rs_c6 := by
    decide
  have h := hclaim _ hmem (by decide)
  exact Option.noConfusion h

/-- C6 (amended): for every record collection and both granularities, the
aggregate table has one row for each bin of the created series or of the
merged series — each series binning every period between its extremes, empty
periods included — outer-joined so that a metric is blank exactly where the
bucket lies outside that metric's binned range (inside the range an empty
bucket counts `0`); the per-bucket mean is the arithmetic mean of the
minutes of the records whose merge falls in the bucket, blank where there is
none; and rows are ordered by ascending bucket start. -/
theorem c6_outer_join_mean_order (rs : List PullRequest) :
    ((∀ k, (∃ row ∈ calc_stats_daily rs, row.date = k) ↔
        (k ∈ groupBins bucketCreatedDaily 86400 rs ∨ k ∈ groupBins bucketMergedDaily 86400 rs)) ∧
      (∀ row ∈ calc_stats_daily rs,
        row.createdCount = (if row.date ∈ groupBins bucketCreatedDaily 86400 rs
          then some (rs.countP (fun r => bucketCreatedDaily r == row.date)) else none) ∧
        row.mergedCount = (if row.date ∈ groupBins bucketMergedDaily 86400 rs
          then some (rs.countP (fun r => bucketMergedDaily r == row.date)) else none) ∧
        row.meanMinutes = (if row.date ∈ rs.map bucketMergedDaily
          then some (((rs.filter (fun r => bucketMergedDaily r == row.date)).map
              (fun r => (r.created_to_merged_minutes : ℚ))).sum /
            ((rs.filter (fun r => bucketMergedDaily r == row.date)).length : ℚ)) else none)) ∧
      List.Sorted (· < ·) ((calc_stats_daily rs).map StatsRow.date)) ∧
    ((∀ k, (∃ row ∈ calc_stats_weekly rs, row.date = k) ↔
        (k ∈ groupBins bucketCreatedWeekly 604800 rs ∨
          k ∈ groupBins bucketMergedWeekly 604800 rs)) ∧
      (∀ row ∈ calc_stats_weekly rs,
        row.createdCount = (if row.date ∈ groupBins bucketCreatedWeekly 604800 rs
          then some (rs.countP (fun r => bucketCreatedWeekly r == row.date)) else none) ∧
        row.mergedCount = (if row.date ∈ groupBins bucketMergedWeekly 604800 rs
          then some (rs.countP (fun r => bucketMergedWeekly r == row.date)) else none) ∧
        row.meanMinutes = (if row.date ∈ rs.map bucketMergedWeekly
          then some (((rs.filter (fun r => bucketMergedWeekly r == row.date)).map
              (fun r => (r.created_to_merged_minutes : ℚ))).sum /
            ((rs.filter (fun r => bucketMergedWeekly r == row.date)).length : ℚ)) else none)) ∧
      List.Sorted (· < ·) ((calc_stats_weekly rs).map StatsRow.date)) :=
  ⟨calc_stats_spec bucketCreatedDaily bucketMergedDaily 86400 rs (by norm_num)
    (align_map_of_bucket (fun r1 r2 => dayBucket_align _ _) rs),
   calc_stats_spec bucketCreatedWeekly bucketMergedWeekly 604800 rs (by norm_num)
    (align_map_of_bucket (fun r1 r2 => weekBucket_align _ _) rs)⟩

def rs6 : List PullRequest := [⟨"a", "u", 0, 5400, 90⟩, ⟨"b", "v", 90000, 84600, -90⟩]

theorem c6_outer_join_mean_order_witness :
    (∃ row ∈ calc_stats_daily rs6, row.date = 86400 ∧ row.createdCount = some 1 ∧
      row.mergedCount = none ∧ row.meanMinutes = none) ∧
    (∃ row ∈ calc_stats_daily rs6, row.date = 0 ∧ row.meanMinutes = some 0) := by
  have h := c6_outer_join_mean_order rs6
  constructor
  · obtain ⟨row, hrow, hdate⟩ := (h.1.1 86400).mpr (Or.inl (by decide))
    refine ⟨row, hrow, hdate, ?_, ?_, ?_⟩
    · have hm := (h.1.2.1 row hrow).1
      rw [hdate, if_pos (by decide)] at hm
      rw [hm]
      decide
    · have hm := (h.1.2.1 row hrow).2.1
      rw [hdate, if_neg (by decide)] at hm
      exact hm
    · have hm := (h.1.2.1 row hrow).2.2
      rw [hdate, if_neg (by decide)] at hm
      exact hm
  · obtain ⟨row, hrow, hdate⟩ := (h.1.1 0).mpr (Or.inr (by decide))
    refine ⟨row, hrow, hdate, ?_⟩
    have hm := (h.1.2.1 row hrow).2.2
    rw [hdate, if_pos (by decide)] at hm
    have hfil : rs6.filter (fun r => bucketMergedDaily r == (0 : Int)) = rs6 := by decide
    rw [hfil] at hm
    rw [hm]
    simp [rs6]

/-- C8 (amended): the primary data output is delimited text whose header row
is `created_at,title,url,created_at,merged_at,created_to_merged_minutes` —
the first column is the default positional row index, merely labelled
`created_at` — followed, when at least one merged pull request exists, by one
row per merged pull request in ascending fetch order. -/
theorem c8_primary_output (env : String → Option String) (parse : String → Option Int)
    (net : String → String → Response RawItem) (fuel : Nat) (owner repo : String)
    (cache : Cache RawItem) (token : String) (prs : List PullRequest)
    (c : Cache RawItem) (eff : Effects)
    (henv : env "ACCESS_TOKEN" = some token) (htok : token ≠ "")
    (hfetch : fetch_pull_requests parse net fuel owner repo token cache = .ok (prs, c, eff))
    (hprs : prs ≠ []) :
    mainModel env parse net fuel owner repo cache =
      .ok ("created_at,title,url,created_at,merged_at,created_to_merged_minutes" ::
        prs.enum.map (fun ie => renderDataRow ie.1 ie.2), c, eff) := by
  rw [mainModel, henv]
  dsimp only
  rw [if_neg htok, hfetch]
  dsimp only
  rw [data_to_csv, if_neg (by simpa using hprs)]
  rfl

def envOk : String → Option String := fun k => if k = "ACCESS_TOKEN" then some "tok" else none

def rawItem0 : RawItem := ⟨"t", "u", "2024-01-01T00:00:00Z", some "2024-01-01T01:30:00Z"⟩

def itemNet : String → String → Response RawItem := fun _ _ =>
  ⟨true, [rawItem0], fun h => if h = "Link" then some "single page" else none⟩

def cache8 : Cache RawItem := [(cacheKey (seedUrl "o" "r"), ⟨[rawItem0], none⟩)]

theorem c8_primary_output_witness :
    mainModel envOk parseW itemNet 1 "o" "r" [] =
      .ok (["created_at,title,url,created_at,merged_at,created_to_merged_minutes",
            "0,t,u,2024-01-01 00:00:00+00:00,2024-01-01 01:30:00+00:00,90"],
        cache8, ⟨1, 1, 1⟩) := by
  have h90 : pythonRound (((1704072600 - 1704067200 : Int) : ℚ) / 60) = 90 := by
    norm_num [pythonRound, Int.even_iff]
  have hfetch0 : fetch_pull_requests parseW itemNet 1 "o" "r" "tok" [] =
      .ok ([⟨"t", "u", 1704067200, 1704072600,
        pythonRound (((1704072600 - 1704067200 : Int) : ℚ) / 60)⟩], cache8, ⟨1, 1, 1⟩) := rfl
  rw [h90] at hfetch0
  have h := c8_primary_output envOk parseW itemNet 1 "o" "r" [] "tok" _ _ _ rfl
    (by decide) hfetch0 (by simp)
  rw [h]
  rfl

/-- C8 counterexample: on a concrete successful run the header row produced
by the code is `created_at,title,url,created_at,merged_at,created_to_merged_minutes`
(the index label is written into the first header cell), not the claimed
`,title,url,created_at,merged_at,created_to_merged_minutes`. -/
theorem c8_primary_output_counterexample :
    (mainModel envOk parseW itemNet 1 "o" "r" []).map (fun x => x.1.head?) =
      .ok (some "created_at,title,url,created_at,merged_at,created_to_merged_minutes") ∧
    "created_at,title,url,created_at,merged_at,created_to_merged_minutes" ≠
      ",title,url,created_at,merged_at,created_to_merged_minutes" := by
  constructor
  · rfl
  · decide

theorem c10_safe_filename_shape_witness :
    isSafeChar 'h' = true ∧ (safe_filename "http://x" 4).length ≤ 13 := by
  have h := c10_safe_filename_shape "http://x" 4
  exact ⟨h.1 'h' (by decide), h.2.2⟩
